import Mathlib

/-!
Verification development for the clipboard-mediated side-effect subsystem of
the hotkey configuration repository (file `config/spec_main.py`).

Strings from the Python source are modelled as `List Char` (named `Text`
below).  Pure Python functions become Lean functions on `Text`; functions
with filesystem side effects take the set of existing filesystem entries as
an explicit `List Text` argument and return the updated list together with a
description of the performed action.  The development targets Python 3
(`_IS_PY2` is false in the source's environment), so the Python-2-only
branches of the source are not modelled.
-/

/-- Python strings are modelled as lists of characters. -/

abbrev Text := List Char

/-- Decimal digit character, `digitChar d` for `d < 10` is `'0'`..`'9'`.
Models the decimal formatting used by Python's `'{}'.format` for `int`. -/

def digitChar (d : Nat) : Char := Char.ofNat (48 + d)

/-- Auxiliary accumulator-based decimal rendering of a natural number.  The
first argument is fuel bounding the number of digits; it makes the recursion
structural (and hence kernel-computable), and with the fuel used by
`natToText` the fuel-exhausted branch is unreachable. -/

def natToTextCore : Nat → Nat → List Char → List Char
  | 0, n, acc => digitChar n :: acc
  | fuel + 1, n, acc =>
    if n < 10 then digitChar n :: acc
    else natToTextCore fuel (n / 10) (digitChar (n % 10) :: acc)

/-- Decimal rendering of a natural number, as in Python `'{}'.format(n)`. -/

def natToText (n : Nat) : Text := natToTextCore n n []

/-- Decimal evaluation (left inverse of `natToText`). -/

def textToNat (t : Text) : Nat := t.foldl (fun a c => 10 * a + (c.toNat - 48)) 0

/-! ## Path separators and the parallel-directory prefix rule -/

/-- True for the two Windows path separator characters (`ntpath` treats both
`'\\'` and `'/'` as separators). -/

def isSep (c : Char) : Bool := c == '\\' || c == '/'

/-- Embeds the prefix test of `open_parallel_dir` (`spec_main.py` line 716):
`(dir_path + '\\').startswith(prefix + '\\')`. -/

def prefix_matches (dir_path pre : Text) : Bool :=
  (pre ++ ['\\']).isPrefixOf (dir_path ++ ['\\'])

/-! ## Case conversion (`clipboard_to_*case`) -/

/-- Models `re.sub(r'[^A-Z0-9a-z]', ' ', text)`: every character outside
`[A-Za-z0-9]` becomes a space. -/

def sub_non_alnum (t : Text) : Text := t.map (fun c => if c.isAlphanum then c else ' ')

/-- Auxiliary scanner for Python `str.split()` (split on whitespace runs,
dropping empty pieces); `acc` holds the current word reversed. -/

def pySplitAux : Text → Text → List Text
  | [], acc => if acc.isEmpty then [] else [acc.reverse]
  | c :: rest, acc =>
    if c.isWhitespace then
      if acc.isEmpty then pySplitAux rest [] else acc.reverse :: pySplitAux rest []
    else pySplitAux rest (c :: acc)

/-- Python `str.split()` with no argument. -/

def pySplit (t : Text) : List Text := pySplitAux t []

/-- Python `str.capitalize`: first character upper-cased, all remaining
characters lower-cased. -/

def pyCapitalize (w : Text) : Text :=
  match w with
  | [] => []
  | c :: r => c.toUpper :: r.map Char.toLower

/-- The four case-conversion modes offered by the hotkey table. -/

inductive CaseMode
  | lower
  | upper
  | camel
  | pascal
deriving DecidableEq

/-- The text transformation performed by `clipboard_to_pascalcase`
(`spec_main.py` lines 938-944): substitute non-alphanumerics with spaces,
split on whitespace, capitalize each word, join. -/

def pascal_text (t : Text) : Text := ((pySplit (sub_non_alnum t)).map pyCapitalize).flatten

/-- Pure core of `clipboard_to_pascalcase`: on empty text the function
returns early and the clipboard text is left unchanged. -/

def clipboard_to_pascalcase (t : Text) : Text :=
  if t.isEmpty then t else pascal_text t

/-- Pure core of `clipboard_to_camelcase` (`spec_main.py` lines 982-993):
as PascalCase, then the first character of a non-empty result is
lower-cased. -/

def clipboard_to_camelcase (t : Text) : Text :=
  if t.isEmpty then t
  else
    match pascal_text t with
    | [] => []
    | c :: r => c.toLower :: r

/-- Pure core of `clipboard_to_lowercase`. -/

def clipboard_to_lowercase (t : Text) : Text :=
  if t.isEmpty then t else t.map Char.toLower

/-- Pure core of `clipboard_to_uppercase`. -/

def clipboard_to_uppercase (t : Text) : Text :=
  if t.isEmpty then t else t.map Char.toUpper

/-- The spec's `caseConvert(text, mode)` interface, dispatching to the four
clipboard conversion routines of the source. -/

def caseConvert : CaseMode → Text → Text
  | .lower => clipboard_to_lowercase
  | .upper => clipboard_to_uppercase
  | .camel => clipboard_to_camelcase
  | .pascal => clipboard_to_pascalcase

/-- Capitalization as literally described by claim C9: only the token's
first letter is upper-cased and the remaining characters are left unchanged. -/

def capFirstOnly (w : Text) : Text :=
  match w with
  | [] => []
  | c :: r => c.toUpper :: r

/-- The conversion algorithm as described by claim C9's words (first letter
of each token capitalized, rest untouched). -/

def caseConvertClaimed : CaseMode → Text → Text
  | .lower, t => t.map Char.toLower
  | .upper, t => t.map Char.toUpper
  | .pascal, t => ((pySplit (sub_non_alnum t)).map capFirstOnly).flatten
  | .camel, t =>
    match ((pySplit (sub_non_alnum t)).map capFirstOnly).flatten with
    | [] => []
    | c :: r => c.toLower :: r

/-- The conversion algorithm as described by the amended claim: each token is
capitalized in Python's sense (first character upper-cased, remaining
characters lower-cased). -/

def caseConvertAmended : CaseMode → Text → Text
  | .lower, t => t.map Char.toLower
  | .upper, t => t.map Char.toUpper
  | .pascal, t => ((pySplit (sub_non_alnum t)).map pyCapitalize).flatten
  | .camel, t =>
    match ((pySplit (sub_non_alnum t)).map pyCapitalize).flatten with
    | [] => []
    | c :: r => c.toLower :: r

/-! ## Percent-escaping (`transform_special_chars` and `unquote_plus`) -/

/-- Upper-case hexadecimal digit for `n < 16` (CPython percent-escapes with
upper-case hex digits). -/

def hexDigitUpper (n : Nat) : Char := if n < 10 then Char.ofNat (48 + n) else Char.ofNat (55 + n)

/-- CPython `urllib`'s always-safe characters besides the alphanumerics. -/

def alwaysSafeMarks : Text := ('_' :: '.' :: '-' :: '~' :: [])

/-- The `safe` argument passed to `quote` by `transform_special_chars`
(`spec_main.py` line 412): the punctuation `!#$%&` apostrophe `()*+,-.;=@[]^_`
backquote, both curly braces, `~`, and the space. -/

def quoteSafeParam : Text :=
  ('!' :: '#' :: '$' :: '%' :: '&' :: Char.ofNat 39 :: '(' :: ')' :: '*' :: '+' :: ',' ::
    '-' :: '.' :: ';' :: '=' :: '@' :: '[' :: ']' :: '^' :: '_' :: Char.ofNat 96 ::
    Char.ofNat 123 :: Char.ofNat 125 :: '~' :: ' ' :: [])

/-- One character of CPython `urllib.parse.quote`: characters that are ASCII
alphanumeric, in the always-safe marks, or in the `safe` argument are kept;
all others are percent-escaped.  The model covers code points below 256
byte-wise; every input in this development is ASCII. -/

def quoteChar (safe : Text) (c : Char) : Text :=
  if c.isAlphanum || alwaysSafeMarks.contains c || safe.contains c then [c]
  else '%' :: hexDigitUpper (c.toNat % 256 / 16) :: hexDigitUpper (c.toNat % 16) :: []

/-- CPython `urllib.parse.quote` with an explicit `safe` argument. -/

def pythonQuote (safe : Text) (t : Text) : Text := t.flatMap (quoteChar safe)

/-- The `text.replace('/', '--')` step of `transform_special_chars`. -/

def replace_slash (t : Text) : Text :=
  t.flatMap (fun c => if c = '/' then ('-' :: '-' :: []) else [c])

/-- `transform_special_chars` (`spec_main.py` lines 399-415): replace `/`
with `--`, then percent-escape everything outside the explicit safe set. -/

def transform_special_chars (t : Text) : Text := pythonQuote quoteSafeParam (replace_slash t)

/-- Hexadecimal digit test used by `unquote`. -/

def isHexDigit (c : Char) : Bool := c.isDigit || ('a' ≤ c && c ≤ 'f') || ('A' ≤ c && c ≤ 'F')

/-- Hexadecimal digit value. -/

def hexVal (c : Char) : Nat :=
  if c.isDigit then c.toNat - 48 else if 'a' ≤ c then c.toNat - 87 else c.toNat - 55

/-- CPython `urllib.parse.unquote_plus` restricted to single-byte escapes:
`'+'` becomes a space, `%xy` with two hex digits decodes to the character
with code `0xXY` (every escape arising in this development is ASCII), and
everything else is copied verbatim. -/

def unquote_plus : Text → Text
  | [] => []
  | '+' :: rest => ' ' :: unquote_plus rest
  | '%' :: a :: b :: rest =>
    if isHexDigit a && isHexDigit b then
      Char.ofNat (16 * hexVal a + hexVal b) :: unquote_plus rest
    else '%' :: unquote_plus (a :: b :: rest)
  | c :: rest => c :: unquote_plus rest

/-- Bool-valued version of claim C3's allowed alphabet: ASCII alphanumerics,
the declared safe punctuation, and the space. -/

def claimSafeChar (c : Char) : Bool :=
  c.isAlphanum ||
    (('!' :: '#' :: '$' :: '%' :: '&' :: Char.ofNat 39 :: '(' :: ')' :: '*' :: '+' :: ',' ::
      '-' :: '.' :: ';' :: '=' :: '@' :: '[' :: ']' :: '^' :: '_' :: Char.ofNat 96 ::
      Char.ofNat 123 :: Char.ofNat 125 :: '~' :: []).contains c) ||
    c == ' '

/-! ## `transform_file_path` (collision disambiguation) -/

/-- Index one past the last character of `p` satisfying `f`, or `0` when no
character satisfies `f` (the `rfind`-plus-one of the `ntpath` scans). -/

def idxAfterLast (f : Char → Bool) (p : Text) : Nat :=
  match p.reverse.findIdx? f with
  | some i => p.length - i
  | none => 0

/-- `ntpath.splitext`: split off the extension at the last dot, provided the
dot comes after the last path separator and the base name has at least one
non-dot character before the dot. -/

def python_splitext (p : Text) : Text × Text :=
  let sepIdx := idxAfterLast isSep p
  let dotIdx := idxAfterLast (fun c => c == '.') p
  if sepIdx < dotIdx then
    if ((p.drop sepIdx).take (dotIdx - 1 - sepIdx)).any (fun c => c != '.') then
      (p.take (dotIdx - 1), p.drop (dotIdx - 1))
    else (p, [])
  else (p, [])

/-- The string `'{}_{}{}'.format(path_noext, postfix_number, ext)` built by
`transform_file_path`. -/

def format_numbered (noext : Text) (n : Nat) (ext : Text) : Text :=
  noext ++ '_' :: natToText n ++ ext

/-- The candidate path tried by `transform_file_path` for postfix number
`n`. -/

def tfpCandidate (path : Text) (n : Nat) : Text :=
  format_numbered (python_splitext path).1 n (python_splitext path).2

/-- The `while os.path.exists(new_path)` loop of `transform_file_path`,
trying postfix numbers `n`, `n+1`, ...; `fs` is the list of existing
filesystem entries.  The fuel argument only bounds the recursion; with the
fuel chosen in `transform_file_path` the fuel-exhausted branch is
unreachable (proved by the pigeonhole argument in `tfp_exists_fresh`). -/

def tfpLoop (fs : List Text) (noext ext : Text) : Nat → Nat → Text
  | n, 0 => format_numbered noext n ext
  | n, fuel + 1 =>
    if format_numbered noext n ext ∈ fs then tfpLoop fs noext ext (n + 1) fuel
    else format_numbered noext n ext

/-- `transform_file_path` (`spec_main.py` lines 418-448): return `path`
itself when no entry exists at `path`, otherwise append `_2`, `_3`, ...
before the extension until an unused path is found. -/

def transform_file_path (fs : List Text) (path : Text) : Text :=
  if path ∈ fs then
    tfpLoop fs (python_splitext path).1 (python_splitext path).2 2 (fs.length + 1)
  else path

/-! ## Random token generation (`base62_text_is_ok`, `base62_text_gen`) -/

/-- `base62_text_is_ok` (`spec_main.py` lines 314-331): the candidate is
accepted iff its first character is a digit other than `'0'`.  The function
reads `text[0]` without a guard, so on the empty string it raises an
`IndexError`; that partiality is modelled by `Option`: `none` is the
out-of-range indexing error. -/

def base62_text_is_ok (text : Text) : Option Bool :=
  match text with
  | [] => none
  | char_first :: _ => some (char_first.isDigit && char_first != '0')

/-- Possible outcomes of `base62_text_gen`. -/

inductive GenResult
  | ok (text : Text)
  | exhausted
  | indexError
deriving DecidableEq

/-- The candidate examined on (1-based) attempt `i` of `base62_text_gen`:
the `i`-th raw zbase62 encoding from the random source, truncated to
`text_length` when given, then upper-cased. -/

def base62_candidate (stream : Nat → Text) (text_length : Option Nat) (i : Nat) : Text :=
  let text := stream i
  let text := match text_length with
    | some n => text.take n
    | none => text
  text.map Char.toUpper

/-- The `while True` loop of `base62_text_gen` (`spec_main.py` lines
334-376), with `tried` the value of `tried_times` before the increment at
the top of the iteration.  `os.urandom` plus `zbase62.b2a` — external to the
repository — are modelled by `stream`, the sequence of raw encoded strings
produced by successive attempts.  `.exhausted` is the
`ValueError('Tried .. times')` raised on exhaustion. -/

def base62_gen_loop (stream : Nat → Text) (text_length : Option Nat)
    (try_times : Nat) (tried : Nat) : GenResult :=
  if try_times < tried + 1 then .exhausted
  else
    match base62_text_is_ok (base62_candidate stream text_length (tried + 1)) with
    | none => .indexError
    | some true => .ok (base62_candidate stream text_length (tried + 1))
    | some false => base62_gen_loop stream text_length try_times (tried + 1)
termination_by try_times - tried
decreasing_by
  omega

/-- `base62_text_gen`: `tried_times` starts at zero. -/

def base62_text_gen (stream : Nat → Text) (text_length : Option Nat)
    (try_times : Nat) : GenResult :=
  base62_gen_loop stream text_length try_times 0

/-! ## Clipboard preserve context (`clipboard_preserve_context`) -/

/-- State of the system clipboard: `some t` means it holds text `t`; `none`
models a clipboard whose text cannot be read (`clipboard_get_text` raises). -/

abbrev Clip := Option Text

/-- Semantics of `with clipboard_preserve_context(): body` (`spec_main.py`
lines 136-176 together with the decorator at lines 179-196).

The body is a state transformer over the clipboard returning a result or an
error.  Entering the context reads the clipboard (`text_old`), treating a
read failure as `None`.  Because the generator's `yield` is NOT wrapped in
`try`/`finally`, Python's `contextlib.contextmanager` semantics are: on a
normal exit the code after the `yield` runs and (when `text_old` is not
`None`) writes `text_old` back; on an error exit `__exit__` throws the
body's exception into the generator at the `yield` point, the generator has
no handler there, so the code after the `yield` — the restoration — never
runs and the exception propagates unchanged. -/

def clipboard_preserve_run {ε α : Type} (body : Clip → Clip × Except ε α)
    (clip : Clip) : Clip × Except ε α :=
  let text_old := clip
  let step := body clip
  match step.2 with
  | Except.ok a =>
    match text_old with
    | some t => (some t, Except.ok a)
    | none => (step.1, Except.ok a)
  | Except.error e => (step.1, Except.error e)

/-- A body that overwrites the clipboard with `"Y"` and then raises. -/

def bodySetYThenRaise : Clip → Clip × Except Unit Unit :=
  fun _ => (some (("Y").data), Except.error ())

/-- A body that overwrites the clipboard with `"Y"` and returns normally. -/

def bodySetYThenReturn : Clip → Clip × Except Unit Unit :=
  fun _ => (some (("Y").data), Except.ok ())

/-! ## URL splitting and the URL archiver (`create_url_file`) -/

/-- Characters permitted in a URL scheme (CPython `scheme_chars`): letters,
digits, `+`, `-`, `.`. -/

def isSchemeChar (c : Char) : Bool := c.isAlphanum || c == '+' || c == '-' || c == '.'

/-- The five components returned by `urllib.parse.urlsplit`. -/

structure UrlParts where
  scheme : Text
  netloc : Text
  path : Text
  query : Text
  fragment : Text
deriving DecidableEq

/-- CPython `urllib.parse.urlsplit`: the scheme is the (lower-cased) part
before the first colon when it starts with an ASCII letter and consists of
scheme characters; the netloc follows `//` and extends to the next `/`, `?`
or `#`; then the fragment is everything after the first `#`, and the query
everything after the first `?` of what remains. -/

def urlsplit (url : Text) : UrlParts :=
  let rest0 :=
    match url.findIdx? (fun x => x == ':') with
    | some i =>
      if 1 ≤ i && (url.take i).all isSchemeChar &&
          (match url.head? with
           | some c => c.isAlpha
           | none => false) then
        ((url.take i).map Char.toLower, url.drop (i + 1))
      else (([] : Text), url)
    | none => (([] : Text), url)
  let scheme := rest0.1
  let rest1 :=
    if (('/' :: '/' :: [])).isPrefixOf rest0.2 then
      let r := rest0.2.drop 2
      let stop :=
        match r.findIdx? (fun x => x == '/' || x == '?' || x == '#') with
        | some j => j
        | none => r.length
      (r.take stop, r.drop stop)
    else (([] : Text), rest0.2)
  let netloc := rest1.1
  let rest2 :=
    match rest1.2.findIdx? (fun x => x == '#') with
    | some j => (rest1.2.take j, rest1.2.drop (j + 1))
    | none => (rest1.2, ([] : Text))
  let rest3 :=
    match rest2.1.findIdx? (fun x => x == '?') with
    | some j => (rest2.1.take j, rest2.1.drop (j + 1))
    | none => (rest2.1, ([] : Text))
  ⟨scheme, netloc, rest3.1, rest3.2, rest2.2⟩

/-- The `url` value used by `create_url_file` after the missing-scheme
default (`spec_main.py` lines 472-487): when `urlsplit` finds no scheme,
`http://` is prepended. -/

def effective_url (url : Text) : Text :=
  if (urlsplit url).scheme = [] then ("http://").data ++ url else url

/-- Python `str.rstrip('-')`. -/

def rstripDash (t : Text) : Text := (t.reverse.dropWhile (fun c => c == '-')).reverse

/-- The archive file name derived from a URL by `create_url_file` (lines
489-525), before the `.url` extension: escaped `netloc + path`, `@` plus the
escaped query when present, `#` plus the escaped fragment when present,
right-stripped of `-`. -/

def url_base_name (url : Text) : Text :=
  let parts := urlsplit (effective_url url)
  let name := transform_special_chars (parts.netloc ++ parts.path)
  let name :=
    if parts.query ≠ [] then name ++ '@' :: transform_special_chars parts.query else name
  let name :=
    if parts.fragment ≠ [] then name ++ '#' :: transform_special_chars parts.fragment
    else name
  rstripDash name

/-- `ntpath.join(dir, name)` for a relative `name` without drive letter and
not starting with a separator (true of every name joined by the source): a
`\\` separator is inserted unless `dir` is empty or already ends with a
separator or a colon. -/

def ntjoin (dir name : Text) : Text :=
  if h : dir = [] then name
  else if isSep (dir.getLast h) || dir.getLast h == ':' then dir ++ name
  else dir ++ '\\' :: name

/-- The `os.listdir(dir)` entry name contributed by the filesystem entry
`p`: its remainder when `p` is a direct child of `dir` (a non-empty,
separator-free name). -/

def childName? (dir p : Text) : Option Text :=
  let pre := ntjoin dir []
  if pre.isPrefixOf p then
    let n := p.drop pre.length
    if n ≠ [] ∧ n.all (fun c => !(isSep c)) = true then some n else none
  else none

/-- `os.listdir(dir)` over the filesystem `fs` (a list of full paths). -/

def listdir (dir : Text) (fs : List Text) : List Text := fs.filterMap (childName? dir)

/-- The filesystem action performed by `create_url_file`. -/

inductive UrlAction
  | touched (path : Text)
  | wrote (path : Text) (content : Text)
deriving DecidableEq

/-- `create_url_file` (`spec_main.py` lines 451-607) over the filesystem
`fs` (list of existing full paths): touch the exact derived path when it
exists; else touch the first directory entry starting with the base name
plus a space; else percent-decode the path (`unquote_plus`), disambiguate
with `transform_file_path`, truncate to 200 characters plus the `.url`
extension when too long (disambiguating again), and write the shortcut
content.  The `except` fallback at lines 594-599 handles an OS-level
`open` failure, which has no representation in this filesystem model and is
not modelled; the Python-2 `decode('gbk')` branch is skipped (Python 3). -/

def create_url_file (url output_dir : Text) (fs : List Text) : List Text × UrlAction :=
  let url' := effective_url url
  let base := url_base_name url
  let name_with_space := base ++ (' ' :: [])
  let name := base ++ (".url").data
  let url_file_path := ntjoin output_dir name
  if url_file_path ∈ fs then (fs, .touched url_file_path)
  else
    match (listdir output_dir fs).find? (fun n => name_with_space.isPrefixOf n) with
    | some n => (fs, .touched (ntjoin output_dir n))
    | none =>
      let p1 := unquote_plus url_file_path
      let p2 := transform_file_path fs p1
      let p3 :=
        if 200 < p2.length then transform_file_path fs (p2.take 200 ++ (".url").data)
        else p2
      (fs ++ (p3 :: []), .wrote p3 (("[InternetShortcut]\nURL=").data ++ url'))

/-! ## Parallel-directory resolution (`open_parallel_dir`) -/

/-- First separator index at or after `start` (`ntpath`'s `find(sep, start)`
with both separators normalized). -/

def findSepFrom (p : Text) (start : Nat) : Option Nat :=
  match (p.drop start).findIdx? isSep with
  | some i => some (start + i)
  | none => none

/-- `ntpath.splitdrive`: a UNC share `\\host\share` or a drive letter `X:`
is split off the front; both separators are treated alike. -/

def splitdrive (p : Text) : Text × Text :=
  if 2 ≤ p.length then
    if (p.take 2).all isSep &&
        !(match (p.drop 2).head? with
          | some c => isSep c
          | none => false) then
      match findSepFrom p 2 with
      | none => ([], p)
      | some index =>
        match findSepFrom p (index + 1) with
        | some index2 =>
          if index2 = index + 1 then ([], p)
          else (p.take index2, p.drop index2)
        | none => (p, [])
    else if (match (p.drop 1).head? with
        | some c => c == ':'
        | none => false) then
      (p.take 2, p.drop 2)
    else ([], p)
  else ([], p)

/-- Remove trailing separators. -/

def dropTrailingSeps (t : Text) : Text := (t.reverse.dropWhile isSep).reverse

/-- `ntpath.split`: head (everything up to the final component, with
trailing separators stripped unless the head is all separators) and tail. -/

def ntsplit (p : Text) : Text × Text :=
  let d := (splitdrive p).1
  let rest := (splitdrive p).2
  let i :=
    match rest.reverse.findIdx? isSep with
    | some j => rest.length - j
    | none => 0
  let head := rest.take i
  let tail := rest.drop i
  let head2 := dropTrailingSeps head
  (d ++ (if head2 = [] then head else head2), tail)

/-- `os.path.dirname`. -/

def dirname (p : Text) : Text := (ntsplit p).1

/-- Outcome of `open_parallel_dir`: open a directory in the explorer,
ignore (the walk reached the partition root), open the base destination
directory (no prefix matched), or do nothing (empty location bar). -/

inductive ParallelAction
  | openDir (p : Text)
  | ignore
  | openBase
  | noAction
deriving DecidableEq

/-- The `path_part in ('', '/', '\\')` partition-root test (line 770). -/

def isRootPart (t : Text) : Bool :=
  t == ([] : Text) || t == ('/' :: []) || t == ('\\' :: [])

/-- The closest-existing-ancestor loop of `open_parallel_dir` (lines
749-778), `fs` being the list of existing directories.  The fuel only
bounds the recursion; `none` marks fuel exhaustion, proved unreachable for
candidates without consecutive separators when the fuel exceeds the
candidate's length. -/

def parallel_walk (fs : List Text) : Nat → Text → Option ParallelAction
  | 0, _ => none
  | fuel + 1, p =>
    if p ∈ fs then some (.openDir p)
    else
      if isRootPart (splitdrive (dirname p)).2 then some .ignore
      else parallel_walk fs fuel (dirname p)

/-- The chain of directories examined by `parallel_walk`: the candidate and
its successive parents, stopping before the partition root. -/

def walk_chain : Nat → Text → List Text
  | 0, _ => []
  | fuel + 1, p =>
    p :: (if isRootPart (splitdrive (dirname p)).2 then [] else walk_chain fuel (dirname p))

/-- The ordered prefix table of `open_parallel_dir` (lines 708-714). -/

def parallel_prefixes : List Text :=
  (("Study").data :: ("Software").data :: ("SoftwareData").data ::
    ("All\\Software2\\SoftwareBig").data :: ("All\\Software2\\SoftwareSmall").data :: [])

/-- Python `str.strip('\\/')`. -/

def stripSeps (t : Text) : Text := ((t.dropWhile isSep).reverse.dropWhile isSep).reverse

/-- `open_parallel_dir` (`spec_main.py` lines 657-789) for Python 3, `fs`
being the list of existing directories and `dir_path_in_bar` the text read
from the explorer's location bar: strip the drive and surrounding
separators, take the first configured prefix matching under the
prefix-then-separator rule, build the candidate under `base_dir` with
backslashes replaced by forward slashes; with `create` the candidate is
created if missing (`os.makedirs`) and opened, otherwise the walk opens the
closest existing ancestor or ignores at the partition root.  When no prefix
matches, the base directory itself is opened. -/

def open_parallel_dir (fs : List Text) (dir_path_in_bar base_dir : Text)
    (create : Bool) : Option (List Text × ParallelAction) :=
  if dir_path_in_bar = [] then some (fs, .noAction)
  else
    let dir_path := stripSeps (splitdrive dir_path_in_bar).2
    match parallel_prefixes.find? (fun pre => prefix_matches dir_path pre) with
    | none => some (fs, .openBase)
    | some pre =>
      let rel := (dir_path.drop pre.length).dropWhile isSep
      let cand := (ntjoin base_dir rel).map (fun c => if c = '\\' then '/' else c)
      if create then
        if cand ∈ fs then some (fs, .openDir cand)
        else some (fs ++ (cand :: []), .openDir cand)
      else
        (parallel_walk fs (cand.length + 1) cand).map (fun a => (fs, a))

/-- A candidate path is well formed for the walk when it contains no two
consecutive separator characters (true of every candidate the repository's
configuration can build, whose base directories are `D:/Study` and
similar). -/

def goodWalkPath : Text → Bool
  | [] => true
  | _ :: [] => true
  | a :: b :: rest => !(isSep a && isSep b) && goodWalkPath (b :: rest)

/-! ## Theorems -/

theorem natToTextCore_small {n : Nat} (h : n < 10) (fuel : Nat) (acc : List Char) :
    natToTextCore fuel n acc = digitChar n :: acc := by
  cases fuel with
  | zero => rfl
  | succ fuel => rw [natToTextCore, if_pos h]

theorem nat_div10_lt {n : Nat} (h : ¬ n < 10) : n / 10 < n :=
  Nat.div_lt_self (Nat.lt_of_lt_of_le (by decide) (Nat.le_of_not_lt h)) (by decide)

theorem natToTextCore_fuel (n : Nat) : ∀ fuel₁ fuel₂ acc, n ≤ fuel₁ → n ≤ fuel₂ →
    natToTextCore fuel₁ n acc = natToTextCore fuel₂ n acc := by
  induction n using Nat.strong_induction_on with
  | _ n ih =>
    intro fuel₁ fuel₂ acc h1 h2
    by_cases h : n < 10
    · rw [natToTextCore_small h, natToTextCore_small h]
    · obtain ⟨f₁, rfl⟩ : ∃ f, fuel₁ = f + 1 := ⟨fuel₁ - 1, by omega⟩
      obtain ⟨f₂, rfl⟩ : ∃ f, fuel₂ = f + 1 := ⟨fuel₂ - 1, by omega⟩
      rw [natToTextCore, if_neg h, natToTextCore, if_neg h]
      have hd := nat_div10_lt h
      exact ih _ hd _ _ _ (by omega) (by omega)

theorem natToTextCore_eq_append (n : Nat) : ∀ fuel acc, n ≤ fuel →
    natToTextCore fuel n acc = natToTextCore fuel n [] ++ acc := by
  induction n using Nat.strong_induction_on with
  | _ n ih =>
    intro fuel acc hf
    by_cases h : n < 10
    · rw [natToTextCore_small h, natToTextCore_small h]
      rfl
    · obtain ⟨f, rfl⟩ : ∃ g, fuel = g + 1 := ⟨fuel - 1, by omega⟩
      rw [natToTextCore, if_neg h, natToTextCore, if_neg h]
      have hd := nat_div10_lt h
      have hle : n / 10 ≤ f := by omega
      rw [ih _ hd f (digitChar (n % 10) :: acc) hle,
        ih _ hd f (digitChar (n % 10) :: []) hle]
      simp

theorem digitChar_toNat : ∀ d : Nat, d < 10 → (digitChar d).toNat = 48 + d := by
  decide

theorem textToNat_append (s t : Text) :
    textToNat (s ++ t) = t.foldl (fun a c => 10 * a + (c.toNat - 48)) (textToNat s) := by
  simp [textToNat, List.foldl_append]

theorem textToNat_natToText (n : Nat) : textToNat (natToText n) = n := by
  induction n using Nat.strong_induction_on with
  | _ n ih =>
    by_cases h : n < 10
    · rw [natToText, natToTextCore_small h]
      simp [textToNat, digitChar_toNat n h]
    · obtain ⟨f, rfl⟩ : ∃ g, n = g + 1 := ⟨n - 1, by omega⟩
      rw [natToText, natToTextCore, if_neg h]
      have hd := nat_div10_lt h
      rw [natToTextCore_eq_append ((f + 1) / 10) f _ (by omega)]
      rw [natToTextCore_fuel ((f + 1) / 10) f ((f + 1) / 10) _ (by omega) (by omega)]
      rw [← natToText, textToNat_append]
      rw [ih _ hd]
      simp only [List.foldl_cons, List.foldl_nil]
      rw [digitChar_toNat _ (Nat.mod_lt (f + 1) (by decide))]
      omega

theorem natToText_injective : Function.Injective natToText := by
  intro a b h
  have := textToNat_natToText a
  rw [h, textToNat_natToText] at this
  omega

theorem append_singleton_prefix_iff (d p : Text) (c : Char) :
    ((p ++ [c]) <+: (d ++ [c])) ↔ d = p ∨ (p ++ [c]) <+: d := by
  constructor
  · rintro ⟨t, ht⟩
    rcases List.eq_nil_or_concat t with rfl | ⟨t', a, rfl⟩

    · left
      rw [List.append_nil] at ht
      exact (List.append_inj' ht rfl).1.symm
    · right
      rw [List.concat_eq_append, ← List.append_assoc] at ht
      obtain ⟨h1, _⟩ := List.append_inj' ht rfl
      exact ⟨t', by rw [← h1, List.append_assoc]⟩
  · rintro (rfl | ⟨t, rfl⟩)
    · exact List.prefix_refl _
    · exact ⟨t ++ [c], by simp⟩

/-- Claim C7: a (drive-stripped, separator-stripped) source path matches a
configured prefix iff it equals the prefix or starts with the prefix followed
by a path separator; in particular a path beginning with `Study2` never
matches the prefix `Study`. -/

theorem claim_C7_prefix_match_rule :
    (∀ d p : Text,
        prefix_matches d p = true ↔ d = p ∨ (p ++ ['\\']).isPrefixOf d = true) ∧
    (∀ d : Text, (("Study2").data).isPrefixOf d = true →
        prefix_matches d (("Study").data) = false) := by
  constructor
  · intro d p
    rw [prefix_matches, List.isPrefixOf_iff_prefix, List.isPrefixOf_iff_prefix]
    exact append_singleton_prefix_iff d p '\\'
  · intro d h
    rw [ List.isPrefixOf_iff_prefix] at h
    by_contra hcon
    rw [Bool.not_eq_false, prefix_matches, List.isPrefixOf_iff_prefix,
      append_singleton_prefix_iff] at hcon
    rcases hcon with rfl | hpre
    · exact absurd h (by decide)
    · rcases List.prefix_or_prefix_of_prefix h hpre with h1 | h2
      · exact absurd (h1.eq_of_length (by decide)) (by decide)
      · exact absurd (h2.eq_of_length (by decide)) (by decide)

/-- Witness for claim C7 at a concrete input. -/

theorem claim_C7_prefix_match_rule_witness :
    ((("Study2").data).isPrefixOf (("Study2\\Dev").data) = true) ∧
    prefix_matches (("Study2\\Dev").data) (("Study").data) = false :=
  ⟨by decide, claim_C7_prefix_match_rule.2 (("Study2\\Dev").data) (by decide)⟩

/-- Counterexample to claim C9 as stated: on input `"AB"` the code produces
`"Ab"` (Python `capitalize` lower-cases the tail of each token), while the
claim's algorithm (capitalize first letter only) produces `"AB"`. -/

theorem claim_C9_counterexample :
    caseConvert CaseMode.pascal (("AB").data) = ("Ab").data ∧
    caseConvertClaimed CaseMode.pascal (("AB").data) = ("AB").data ∧
    ("Ab").data ≠ ("AB").data := by
  refine ⟨by decide, by decide, by decide⟩

/-- Amended claim C9: for every input and mode the conversion equals the
pipeline that replaces non-alphanumerics with spaces, splits on whitespace,
capitalizes each token in Python's sense (first character upper-cased, rest
lower-cased) and concatenates, camel mode additionally lower-casing the first
character; empty input yields empty output, and the function is total. -/

theorem claim_C9_amended_case_convert :
    ∀ (mode : CaseMode) (t : Text),
      caseConvert mode t = caseConvertAmended mode t ∧ caseConvert mode [] = [] := by
  intro mode t
  exact ⟨by cases mode <;> cases t <;> rfl, by cases mode <;> rfl⟩

theorem quoteChar_of_claimSafe (c : Char) (h1 : claimSafeChar c = true) :
    quoteChar quoteSafeParam c = [c] := by
  rw [claimSafeChar, Bool.or_eq_true, Bool.or_eq_true] at h1
  rcases h1 with (halnum | hpunct) | hspace
  · rw [quoteChar, if_pos]
    rw [halnum]
    rfl
  · rw [List.contains_eq_any_beq] at hpunct
    simp only [List.any_cons, List.any_nil, Bool.or_eq_true, beq_iff_eq,
      Bool.false_eq_true, or_false] at hpunct
    rcases hpunct with h | h | h | h | h | h | h | h | h | h | h | h | h | h | h | h | h |
        h | h | h | h | h | h | h
    all_goals subst h
    all_goals decide
  · rw [beq_iff_eq] at hspace
    subst hspace
    decide

theorem replace_slash_id (t : Text) (h : ∀ c ∈ t, c ≠ '/') : replace_slash t = t := by
  induction t with
  | nil => rfl
  | cons c rest ih =>
    rw [replace_slash, List.flatMap_cons]
    rw [if_neg (h c (List.mem_cons_self c rest))]
    rw [← replace_slash, ih (fun x hx => h x (List.mem_cons_of_mem c hx))]
    rfl

theorem pythonQuote_id (safe : Text) (t : Text)
    (h : ∀ c ∈ t, quoteChar safe c = [c]) : pythonQuote safe t = t := by
  induction t with
  | nil => rfl
  | cons c rest ih =>
    rw [pythonQuote, List.flatMap_cons, h c (List.mem_cons_self c rest)]
    rw [← pythonQuote, ih (fun x hx => h x (List.mem_cons_of_mem c hx))]
    rfl

theorem unquote_plus_id (t : Text) (h : ∀ c ∈ t, c ≠ '+' ∧ c ≠ '%') :
    unquote_plus t = t := by
  induction t using unquote_plus.induct with
  | case1 => rfl
  | case2 rest _ =>
    exact absurd rfl (h '+' (List.mem_cons_self _ _)).1
  | case3 a b rest hhex _ =>
    exact absurd rfl (h '%' (List.mem_cons_self _ _)).2
  | case4 a b rest hhex _ =>
    exact absurd rfl (h '%' (List.mem_cons_self _ _)).2
  | case5 c rest hne1 hne2 ih =>
    have hc : c ≠ '+' ∧ c ≠ '%' := h c (List.mem_cons_self c rest)
    rw [unquote_plus.eq_def]
    split
    · rename_i heq
      exact (List.cons_ne_nil c rest heq).elim
    · rename_i rest' heq
      have h1 : c = '+' := by injection heq
      exact absurd h1 hc.1
    · rename_i a b rest' heq
      have h1 : c = '%' := by injection heq
      exact absurd h1 hc.2
    · rename_i c' rest' hx1 hx2 heq
      obtain ⟨rfl, rfl⟩ : c = c' ∧ rest = rest' := by
        injection heq with i1 i2
        exact ⟨i1, i2⟩
      rw [ih (fun x hx => h x (List.mem_cons_of_mem c hx))]

/-- Counterexample to claim C3 as stated: `'+'` and `'%'` belong to the
declared safe set, so `transform_special_chars` keeps them verbatim, but the
percent-decoding used by the archiver (`unquote_plus`) turns `'+'` into a
space and decodes `%41` to `A`; the round trip is not the identity on the
claimed alphabet. -/

theorem claim_C3_counterexample :
    (claimSafeChar '+' = true ∧
      unquote_plus (transform_special_chars ('+' :: [])) = (' ' :: []) ∧
      (' ' :: []) ≠ ('+' :: [])) ∧
    ((∀ c ∈ ("%41").data, claimSafeChar c = true) ∧
      unquote_plus (transform_special_chars (("%41").data)) = ('A' :: []) ∧
      ('A' :: []) ≠ ("%41").data) := by
  refine ⟨⟨by decide, by decide, by decide⟩, ⟨by decide, by decide, by decide⟩⟩

/-- Amended claim C3: for every input whose characters are ASCII
alphanumerics, the declared safe punctuation or the space, but excluding
`'+'` and `'%'`, applying `transform_special_chars` and then the archiver's
percent-decoding returns the original string. -/

theorem claim_C3_amended_roundtrip (t : Text)
    (h : ∀ c ∈ t, claimSafeChar c = true ∧ c ≠ '+' ∧ c ≠ '%') :
    unquote_plus (transform_special_chars t) = t := by
  have hslash : ∀ c ∈ t, c ≠ '/' := by
    intro c hc
    intro hcon
    have := (h c hc).1
    rw [hcon] at this
    exact absurd this (by decide)
  have hq : transform_special_chars t = t := by
    rw [transform_special_chars, replace_slash_id t hslash]
    exact pythonQuote_id _ t (fun c hc => quoteChar_of_claimSafe c (h c hc).1)
  rw [hq]
  exact unquote_plus_id t (fun c hc => (h c hc).2)

/-- Witness for the amended claim C3 at a concrete input. -/

theorem claim_C3_amended_roundtrip_witness :
    (∀ c ∈ ("a b.c").data, claimSafeChar c = true ∧ c ≠ '+' ∧ c ≠ '%') ∧
    unquote_plus (transform_special_chars (("a b.c").data)) = ("a b.c").data :=
  ⟨by decide, claim_C3_amended_roundtrip (("a b.c").data) (by decide)⟩

theorem format_numbered_inj (noext ext : Text) {m n : Nat}
    (h : format_numbered noext m ext = format_numbered noext n ext) : m = n := by
  rw [format_numbered, format_numbered] at h
  have h1 := List.append_cancel_right h
  have h2 := List.append_cancel_left h1
  rw [List.cons.injEq] at h2
  exact natToText_injective h2.2

theorem tfp_exists_fresh (fs : List Text) (noext ext : Text) :
    ∃ i, i ≤ fs.length ∧ format_numbered noext (2 + i) ext ∉ fs := by
  by_contra hcon
  push_neg at hcon
  have hsub : ∀ x ∈ (List.range (fs.length + 1)).map
      (fun i => format_numbered noext (2 + i) ext), x ∈ fs := by
    intro x hx
    rw [List.mem_map] at hx
    obtain ⟨i, hi, rfl⟩ := hx
    rw [List.mem_range] at hi
    exact hcon i (Nat.lt_succ_iff.mp hi)
  have hnodup : ((List.range (fs.length + 1)).map
      (fun i => format_numbered noext (2 + i) ext)).Nodup := by
    refine List.Nodup.map ?_ (List.nodup_range _)
    intro a b hab
    have := format_numbered_inj noext ext hab
    omega
  have h1 : ((List.range (fs.length + 1)).map
      (fun i => format_numbered noext (2 + i) ext)).toFinset.card = fs.length + 1 := by
    rw [List.toFinset_card_of_nodup hnodup, List.length_map, List.length_range]
  have h2 : ((List.range (fs.length + 1)).map
      (fun i => format_numbered noext (2 + i) ext)).toFinset ⊆ fs.toFinset := by
    intro x hx
    rw [List.mem_toFinset] at hx ⊢
    exact hsub x hx
  have h3 := Finset.card_le_card h2
  have h4 := List.toFinset_card_le fs
  omega

theorem tfpLoop_spec (fs : List Text) (noext ext : Text) :
    ∀ fuel n, (∃ i, i < fuel ∧ format_numbered noext (n + i) ext ∉ fs) →
      ∃ i, i < fuel ∧
        tfpLoop fs noext ext n fuel = format_numbered noext (n + i) ext ∧
        format_numbered noext (n + i) ext ∉ fs ∧
        ∀ j, j < i → format_numbered noext (n + j) ext ∈ fs := by
  intro fuel
  induction fuel with
  | zero =>
    intro n h
    obtain ⟨i, hi, _⟩ := h
    omega
  | succ fuel ih =>
    intro n h
    by_cases hmem : format_numbered noext n ext ∈ fs
    · obtain ⟨i, hi, hfree⟩ := h
      have hipos : i ≠ 0 := by
        intro h0
        subst h0
        exact hfree hmem
      have hprev : format_numbered noext (n + 1 + (i - 1)) ext ∉ fs := by
        have harith : n + 1 + (i - 1) = n + i := by omega
        rw [harith]
        exact hfree
      obtain ⟨i', hi', heq, hfree', hall⟩ := ih (n + 1) ⟨i - 1, by omega, hprev⟩
      refine ⟨i' + 1, by omega, ?_, ?_, ?_⟩
      · rw [tfpLoop, if_pos hmem, heq]
        have harith : n + 1 + i' = n + (i' + 1) := by omega
        rw [harith]
      · have harith : n + 1 + i' = n + (i' + 1) := by omega
        rw [← harith]
        exact hfree'
      · intro j hj
        rcases Nat.eq_zero_or_pos j with rfl | hjpos
        · simpa using hmem
        · have harith : n + j = n + 1 + (j - 1) := by omega
          rw [harith]
          exact hall (j - 1) (by omega)
    · refine ⟨0, by omega, ?_, by simpa using hmem, by omega⟩
      rw [tfpLoop, if_neg hmem]
      simp

/-- Claim C4: `transform_file_path(path)` returns `path` itself when no
entry exists at `path`, and otherwise returns the first candidate
`(path without extension) + _n + extension` for `n = 2, 3, ...` at which no
entry exists; the returned path never collides with an existing entry, and
on a second distinct URL deriving the same base the result is the `_2`
variant. -/

theorem claim_C4_transform_file_path (fs : List Text) (path : Text) :
    (path ∉ fs → transform_file_path fs path = path) ∧
    (path ∈ fs → ∃ n, 2 ≤ n ∧
        transform_file_path fs path = tfpCandidate path n ∧
        tfpCandidate path n ∉ fs ∧
        ∀ m, 2 ≤ m → m < n → tfpCandidate path m ∈ fs) ∧
    transform_file_path fs path ∉ fs ∧
    transform_file_path (("a.url").data :: []) (("a.url").data) = ("a_2.url").data := by
  have hmain : path ∈ fs → ∃ n, 2 ≤ n ∧
      transform_file_path fs path = tfpCandidate path n ∧
      tfpCandidate path n ∉ fs ∧
      ∀ m, 2 ≤ m → m < n → tfpCandidate path m ∈ fs := by
    intro hmem
    obtain ⟨i, hile, hfree⟩ :=
      tfp_exists_fresh fs (python_splitext path).1 (python_splitext path).2
    obtain ⟨i', hi', heq, hfree', hall⟩ :=
      tfpLoop_spec fs (python_splitext path).1 (python_splitext path).2
        (fs.length + 1) 2 ⟨i, by omega, hfree⟩
    refine ⟨2 + i', by omega, ?_, hfree', ?_⟩
    · rw [transform_file_path, if_pos hmem, heq]
      rfl
    · intro m h2m hmlt
      have harith : m = 2 + (m - 2) := by omega
      rw [tfpCandidate, harith]
      exact hall (m - 2) (by omega)
  refine ⟨?_, hmain, ?_, by decide⟩
  · intro hnot
    rw [transform_file_path, if_neg hnot]
  · by_cases hmem : path ∈ fs
    · obtain ⟨n, _, heq, hfree, _⟩ := hmain hmem
      rw [heq]
      exact hfree
    · rw [transform_file_path, if_neg hmem]
      exact hmem

/-- Witness for claim C4 at a concrete input (the collision branch). -/

theorem claim_C4_transform_file_path_witness :
    (("b.url").data ∈ (("b.url").data :: ("b_2.url").data :: [])) ∧
    (∃ n, 2 ≤ n ∧
      transform_file_path (("b.url").data :: ("b_2.url").data :: []) (("b.url").data) =
        tfpCandidate (("b.url").data) n ∧
      tfpCandidate (("b.url").data) n ∉ (("b.url").data :: ("b_2.url").data :: []) ∧
      ∀ m, 2 ≤ m → m < n →
        tfpCandidate (("b.url").data) m ∈ (("b.url").data :: ("b_2.url").data :: [])) :=
  ⟨by decide,
    (claim_C4_transform_file_path (("b.url").data :: ("b_2.url").data :: [])
      (("b.url").data)).2.1 (by decide)⟩

theorem base62_text_is_ok_of_ne_nil (text : Text) (h : text ≠ []) :
    ∃ b, base62_text_is_ok text = some b := by
  cases text with
  | nil => exact absurd rfl h
  | cons c r => exact ⟨_, rfl⟩

theorem base62_gen_loop_spec (stream : Nat → Text) (text_length : Option Nat)
    (try_times : Nat) :
    ∀ k tried, try_times ≤ tried + k →
      ((base62_gen_loop stream text_length try_times tried = .exhausted ↔
          ∀ i, tried < i → i ≤ try_times →
            base62_text_is_ok (base62_candidate stream text_length i) = some false) ∧
       (∀ t, base62_gen_loop stream text_length try_times tried = .ok t →
          ∃ i, tried < i ∧ i ≤ try_times ∧
            t = base62_candidate stream text_length i ∧
            base62_text_is_ok t = some true ∧
            ∀ j, tried < j → j < i →
              base62_text_is_ok (base62_candidate stream text_length j) = some false) ∧
       ((∀ i, base62_candidate stream text_length i ≠ []) →
          base62_gen_loop stream text_length try_times tried ≠ .indexError)) := by
  intro k
  induction k with
  | zero =>
    intro tried hk
    rw [base62_gen_loop, if_pos (by omega)]
    refine ⟨⟨fun _ i h1 h2 => by omega, fun _ => rfl⟩, ?_, ?_⟩
    · intro t h
      simp at h
    · intro _ h
      simp at h
  | succ k ih =>
    intro tried hk
    by_cases hstop : try_times < tried + 1
    · rw [base62_gen_loop, if_pos hstop]
      refine ⟨⟨fun _ i h1 h2 => by omega, fun _ => rfl⟩, ?_, ?_⟩
      · intro t h
        simp at h
      · intro _ h
        simp at h
    · rw [base62_gen_loop, if_neg hstop]
      cases hok : base62_text_is_ok (base62_candidate stream text_length (tried + 1)) with
      | none =>
        refine ⟨⟨?_, ?_⟩, ?_, ?_⟩
        · intro h
          simp at h
        · intro hall
          have := hall (tried + 1) (by omega) (by omega)
          rw [hok] at this
          simp at this
        · intro t h
          simp at h
        · intro hne _
          obtain ⟨b, hb⟩ := base62_text_is_ok_of_ne_nil _ (hne (tried + 1))
          rw [hok] at hb
          simp at hb
      | some b =>
        cases b with
        | true =>
          refine ⟨⟨?_, ?_⟩, ?_, ?_⟩
          · intro h
            simp at h
          · intro hall
            have := hall (tried + 1) (by omega) (by omega)
            rw [hok] at this
            simp at this
          · intro t h
            have ht : base62_candidate stream text_length (tried + 1) = t := by
              injection h
            refine ⟨tried + 1, by omega, by omega, ht.symm, ht ▸ hok, ?_⟩
            intro j h1 h2
            omega
          · intro _ h
            simp at h
        | false =>
          obtain ⟨ih1, ih2, ih3⟩ := ih (tried + 1) (by omega)
          refine ⟨⟨?_, ?_⟩, ?_, ih3⟩
          · intro h
            intro i h1 h2
            rcases Nat.lt_or_ge tried.succ i with hgt | hle
            · exact ih1.mp h i hgt h2
            · have : i = tried + 1 := by omega
              rw [this]
              exact hok
          · intro hall
            exact ih1.mpr (fun i h1 h2 => hall i (by omega) h2)
          · intro t h
            obtain ⟨i, hi1, hi2, hi3, hi4, hi5⟩ := ih2 t h
            refine ⟨i, by omega, hi2, hi3, hi4, ?_⟩
            intro j h1 h2
            rcases Nat.lt_or_ge tried.succ j with hgt | hle
            · exact hi5 j hgt h2
            · have : j = tried + 1 := by omega
              rw [this]
              exact hok

/-- Claim C5: for `maxAttempts ≥ 1`, `base62_text_gen` with `text_length=5`
either returns a 5-character string accepted by `base62_text_is_ok` (first
character a digit other than `'0'`) or exhausts; it exhausts exactly when
all `maxAttempts` consecutively generated candidates fail the acceptance
predicate, and the returned value is always one of the generated candidates
(the first accepted one), never a repaired rejected candidate.  The
hypothesis on `stream` models `zbase62.b2a(os.urandom(16))`, whose output
always has at least 5 characters. -/

theorem claim_C5_random_token (stream : Nat → Text) (try_times : Nat)
    (htry : 1 ≤ try_times) (hlen : ∀ i, 5 ≤ (stream i).length) :
    (base62_text_gen stream (some 5) try_times = .exhausted ↔
        ∀ i, 1 ≤ i → i ≤ try_times →
          base62_text_is_ok (base62_candidate stream (some 5) i) = some false) ∧
    (∀ t, base62_text_gen stream (some 5) try_times = .ok t →
        t.length = 5 ∧
        (∃ c r, t = c :: r ∧ c.isDigit = true ∧ c ≠ '0') ∧
        ∃ i, 1 ≤ i ∧ i ≤ try_times ∧ t = base62_candidate stream (some 5) i ∧
          ∀ j, 1 ≤ j → j < i →
            base62_text_is_ok (base62_candidate stream (some 5) j) = some false) ∧
    (base62_text_gen stream (some 5) try_times = .exhausted ∨
        ∃ t, base62_text_gen stream (some 5) try_times = .ok t) := by
  have hne : ∀ i, base62_candidate stream (some 5) i ≠ [] := by
    intro i
    have h5 := hlen i
    rw [base62_candidate]
    simp only [ne_eq, List.map_eq_nil_iff, List.take_eq_nil_iff]
    push_neg
    refine ⟨by omega, ?_⟩
    intro hnil
    rw [hnil] at h5
    simp at h5
  have hcandlen : ∀ i, (base62_candidate stream (some 5) i).length = 5 := by
    intro i
    have h5 := hlen i
    rw [base62_candidate]
    simp only [List.length_map, List.length_take]
    omega
  obtain ⟨h1, h2, h3⟩ :=
    base62_gen_loop_spec stream (some 5) try_times try_times 0 (by omega)
  refine ⟨?_, ?_, ?_⟩
  · rw [base62_text_gen]
    constructor
    · intro h i hi1 hi2
      exact h1.mp h i (by omega) hi2
    · intro hall
      exact h1.mpr (fun i hi1 hi2 => hall i (by omega) hi2)
  · intro t h
    obtain ⟨i, hi1, hi2, hi3, hi4, hi5⟩ := h2 t h
    refine ⟨?_, ?_, i, by omega, hi2, hi3, fun j hj1 hj2 => hi5 j (by omega) hj2⟩
    · rw [hi3]
      exact hcandlen i
    · rcases hcand : base62_candidate stream (some 5) i with _ | ⟨c, r⟩
      · exact absurd hcand (hne i)
      · rw [hi3, hcand]
        have := hi4
        rw [hi3, hcand] at this
        rw [base62_text_is_ok] at this
        simp only [Option.some.injEq, Bool.and_eq_true, bne_iff_ne, ne_eq] at this
        exact ⟨c, r, rfl, this.1, this.2⟩
  · cases hres : base62_text_gen stream (some 5) try_times with
    | ok t => exact Or.inr ⟨t, rfl⟩
    | exhausted => exact Or.inl rfl
    | indexError => exact absurd hres (h3 hne)

/-- Witness for claim C5 at a concrete random stream. -/

theorem claim_C5_random_token_witness :
    (1 ≤ 3 ∧ (∀ i : Nat, 5 ≤ (("1abcde").data).length)) ∧
    (base62_text_gen (fun _ => ("1abcde").data) (some 5) 3 = .exhausted ↔
        ∀ i, 1 ≤ i → i ≤ 3 →
          base62_text_is_ok (base62_candidate (fun _ => ("1abcde").data) (some 5) i) =
            some false) := by
  refine ⟨⟨by omega, fun _ => by decide⟩, ?_⟩
  exact (claim_C5_random_token (fun _ => ("1abcde").data) 3 (by omega)
    (fun i => by
      show 5 ≤ (("1abcde").data).length
      decide)).1

/-- Claim C10: `base62_text_is_ok` reads `text[0]` without guarding against
the empty string (it is `none`, an `IndexError`, exactly on empty input); for
a non-`None` requested length of at least 1 (or no length limit) every
candidate in `base62_text_gen` is non-empty and the predicate call stays in
bounds, but `base62_text_gen` with `text_length=0` hits the out-of-range
indexing error on its first candidate instead of returning a token or
raising the exhaustion error. -/

theorem claim_C10_is_ok_partiality :
    (base62_text_is_ok [] = none) ∧
    (∀ text : Text, text ≠ [] → ∃ b, base62_text_is_ok text = some b) ∧
    (∀ (stream : Nat → Text) (text_length : Option Nat) (try_times : Nat),
      (∀ i, stream i ≠ []) →
      (text_length = none ∨ ∃ k, text_length = some k ∧ 1 ≤ k) →
      base62_text_gen stream text_length try_times ≠ .indexError) ∧
    (∀ (stream : Nat → Text) (try_times : Nat), 1 ≤ try_times →
      base62_text_gen stream (some 0) try_times = .indexError) := by
  refine ⟨rfl, base62_text_is_ok_of_ne_nil, ?_, ?_⟩
  · intro stream text_length try_times hstream hlen
    have hne : ∀ i, base62_candidate stream text_length i ≠ [] := by
      intro i
      have hs := hstream i
      rcases hlen with rfl | ⟨k, rfl, hk⟩
      · rw [base62_candidate]
        simp only [ne_eq, List.map_eq_nil_iff]
        exact hs
      · rw [base62_candidate]
        simp only [ne_eq, List.map_eq_nil_iff, List.take_eq_nil_iff]
        push_neg
        exact ⟨by omega, hs⟩
    obtain ⟨_, _, h3⟩ :=
      base62_gen_loop_spec stream text_length try_times try_times 0 (by omega)
    exact h3 hne
  · intro stream try_times htry
    rw [base62_text_gen, base62_gen_loop, if_neg (by omega)]
    have hcand : base62_candidate stream (some 0) 1 = [] := by
      rw [base62_candidate]
      simp
    rw [hcand]
    rfl

/-- Witness for claim C10 at concrete inputs. -/

theorem claim_C10_is_ok_partiality_witness :
    (('1' :: []) ≠ ([] : Text) ∧ (1 : Nat) ≤ 1) ∧
    base62_text_gen (fun _ => ('1' :: [])) (some 1) 1 ≠ .indexError ∧
    base62_text_gen (fun _ => ('1' :: [])) (some 0) 1 = .indexError :=
  ⟨⟨by decide, by omega⟩,
    claim_C10_is_ok_partiality.2.2.1 (fun _ => ('1' :: [])) (some 1) 1
      (fun i => by
        show ('1' :: []) ≠ []
        decide) (Or.inr ⟨1, rfl, by omega⟩),
    claim_C10_is_ok_partiality.2.2.2 (fun _ => ('1' :: [])) 1 (by omega)⟩

/-- Claim C1 is refuted by the code: with the clipboard holding `"X"` and a
body that sets it to `"Y"` and raises, the error does propagate, but the
clipboard still holds `"Y"` afterwards — the restoration step is skipped on
the error exit path because the `yield` in `clipboard_preserve_context` is
not wrapped in `try`/`finally`.  On the normal exit path the snapshot is
restored, confirming that restoration-on-error was the intent. -/

theorem claim_C1_restore_skipped_on_error :
    (clipboard_preserve_run bodySetYThenRaise (some (("X").data)) =
        (some (("Y").data), Except.error ()) ∧
      some (("Y").data) ≠ some (("X").data)) ∧
    clipboard_preserve_run bodySetYThenReturn (some (("X").data)) =
      (some (("X").data), Except.ok ()) := by
  refine ⟨⟨rfl, by decide⟩, rfl⟩

theorem ntjoin_eq_pre_append (dir name : Text) : ntjoin dir name = ntjoin dir [] ++ name := by
  by_cases h : dir = []
  · rw [ntjoin, ntjoin, dif_pos h, dif_pos h]
    rfl
  · rw [ntjoin, ntjoin, dif_neg h, dif_neg h]
    by_cases hsep : isSep (dir.getLast h) || dir.getLast h == ':'
    · rw [if_pos hsep, if_pos hsep, List.append_nil]
    · rw [if_neg hsep, if_neg hsep]
      simp

theorem create_url_file_touch (url d : Text) (fs : List Text)
    (hmem : ntjoin d (url_base_name url ++ (".url").data) ∈ fs) :
    create_url_file url d fs =
      (fs, UrlAction.touched (ntjoin d (url_base_name url ++ (".url").data))) := by
  simp only [create_url_file]
  rw [if_pos hmem]

theorem childName_of_join (d name : Text) (hne : name ≠ [])
    (hall : name.all (fun c => !(isSep c)) = true) :
    childName? d (ntjoin d name) = some name := by
  simp only [childName?]
  rw [ntjoin_eq_pre_append d name]
  rw [if_pos (by
    rw [ List.isPrefixOf_iff_prefix]
    exact List.prefix_append _ _)]
  rw [List.drop_left]
  rw [if_pos ⟨hne, hall⟩]

theorem create_url_file_write (url d : Text) (fs : List Text)
    (hld : listdir d fs = [])
    (hmem : ntjoin d (url_base_name url ++ (".url").data) ∉ fs)
    (hunq : unquote_plus (ntjoin d (url_base_name url ++ (".url").data)) =
      ntjoin d (url_base_name url ++ (".url").data))
    (hlen : (ntjoin d (url_base_name url ++ (".url").data)).length ≤ 200) :
    create_url_file url d fs =
      (fs ++ (ntjoin d (url_base_name url ++ (".url").data) :: []),
        UrlAction.wrote (ntjoin d (url_base_name url ++ (".url").data))
          (("[InternetShortcut]\nURL=").data ++ effective_url url)) := by
  simp only [create_url_file]
  rw [if_neg hmem, hld]
  simp only [List.find?_nil]
  rw [hunq]
  rw [transform_file_path, if_neg hmem]
  rw [if_neg (by omega)]

/-- Counterexample to claim C2 as stated: for the URL
`http://example.com/a+b` the derived name keeps the `+` (it is in the safe
set), but the written file name is percent-decoded (`unquote_plus`), turning
`+` into a space; the second call therefore misses both idempotence checks
and writes a `_2` file, so two calls leave two files in the directory. -/

theorem claim_C2_counterexample :
    (listdir (("out").data)
        (create_url_file (("http://example.com/a+b").data) (("out").data)
          (create_url_file (("http://example.com/a+b").data) (("out").data) []).1).1).length
      = 2 ∧ (2 : Nat) ≠ 1 := by
  exact ⟨by decide, by decide⟩

/-- Amended claim C2: if a file with exactly the derived name already exists
in the output directory, `create_url_file` only touches it and writes
nothing.  Moreover, for every URL and directory whose derived full path is
unchanged by percent-decoding, is at most 200 characters long, and whose
derived name is separator-free, starting from a directory with no entries:
the first call writes exactly the derived path and a second identical call
only touches it, leaving exactly one file in the directory. -/

theorem claim_C2_amended_idempotence (url d : Text) (fs : List Text) :
    (ntjoin d (url_base_name url ++ (".url").data) ∈ fs →
        create_url_file url d fs =
          (fs, UrlAction.touched (ntjoin d (url_base_name url ++ (".url").data)))) ∧
    (listdir d fs = [] →
      ntjoin d (url_base_name url ++ (".url").data) ∉ fs →
      unquote_plus (ntjoin d (url_base_name url ++ (".url").data)) =
        ntjoin d (url_base_name url ++ (".url").data) →
      (ntjoin d (url_base_name url ++ (".url").data)).length ≤ 200 →
      (url_base_name url ++ (".url").data).all (fun c => !(isSep c)) = true →
      create_url_file url d fs =
        (fs ++ (ntjoin d (url_base_name url ++ (".url").data) :: []),
          UrlAction.wrote (ntjoin d (url_base_name url ++ (".url").data))
            (("[InternetShortcut]\nURL=").data ++ effective_url url)) ∧
      create_url_file url d (fs ++ (ntjoin d (url_base_name url ++ (".url").data) :: [])) =
        (fs ++ (ntjoin d (url_base_name url ++ (".url").data) :: []),
          UrlAction.touched (ntjoin d (url_base_name url ++ (".url").data))) ∧
      listdir d (fs ++ (ntjoin d (url_base_name url ++ (".url").data) :: [])) =
        ((url_base_name url ++ (".url").data) :: [])) := by
  refine ⟨create_url_file_touch url d fs, ?_⟩
  intro hld hmem hunq hlen hall
  refine ⟨create_url_file_write url d fs hld hmem hunq hlen, ?_, ?_⟩
  · exact create_url_file_touch url d _
      (List.mem_append_right fs (List.mem_cons_self _ _))
  · rw [listdir, List.filterMap_append]
    rw [← listdir, hld]
    rw [List.filterMap_cons]
    rw [childName_of_join d (url_base_name url ++ (".url").data)
      (by simp) hall]
    rfl

/-- Witness for the amended claim C2 at a concrete input. -/

theorem claim_C2_amended_idempotence_witness :
    (listdir (("out").data) [] = [] ∧
      ntjoin (("out").data)
          (url_base_name (("http://example.com/a").data) ++ (".url").data) ∉ ([] : List Text) ∧
      unquote_plus (ntjoin (("out").data)
          (url_base_name (("http://example.com/a").data) ++ (".url").data)) =
        ntjoin (("out").data)
          (url_base_name (("http://example.com/a").data) ++ (".url").data) ∧
      (ntjoin (("out").data)
          (url_base_name (("http://example.com/a").data) ++ (".url").data)).length ≤ 200 ∧
      (url_base_name (("http://example.com/a").data) ++ (".url").data).all
          (fun c => !(isSep c)) = true) ∧
    (create_url_file (("http://example.com/a").data) (("out").data)
        (([] : List Text) ++
          (ntjoin (("out").data)
            (url_base_name (("http://example.com/a").data) ++ (".url").data) :: [])) =
      (([] : List Text) ++
          (ntjoin (("out").data)
            (url_base_name (("http://example.com/a").data) ++ (".url").data) :: []),
        UrlAction.touched (ntjoin (("out").data)
          (url_base_name (("http://example.com/a").data) ++ (".url").data))) ∧
      listdir (("out").data)
          (([] : List Text) ++
            (ntjoin (("out").data)
              (url_base_name (("http://example.com/a").data) ++ (".url").data) :: [])) =
        ((url_base_name (("http://example.com/a").data) ++ (".url").data) :: [])) :=
  ⟨⟨by decide, by decide, by decide, by decide, by decide⟩,
    (((claim_C2_amended_idempotence (("http://example.com/a").data) (("out").data) []).2
      (by decide) (by decide) (by decide) (by decide) (by decide)).2.1),
    (((claim_C2_amended_idempotence (("http://example.com/a").data) (("out").data) []).2
      (by decide) (by decide) (by decide) (by decide) (by decide)).2.2)⟩

/-- Claim C6: when the percent-decoded (human-readable) candidate path
exceeds the 200-character maximum, `create_url_file` truncates it to 200
characters and appends the `.url` archive extension (the result then being
disambiguated once more) before writing. -/

theorem claim_C6_truncation (url d : Text) (fs : List Text)
    (hmem : ntjoin d (url_base_name url ++ (".url").data) ∉ fs)
    (hld : (listdir d fs).find?
        (fun n => (url_base_name url ++ (' ' :: [])).isPrefixOf n) = none)
    (hlong : 200 < (transform_file_path fs
        (unquote_plus (ntjoin d (url_base_name url ++ (".url").data)))).length) :
    (create_url_file url d fs).2 =
      UrlAction.wrote
        (transform_file_path fs
          ((transform_file_path fs
              (unquote_plus (ntjoin d (url_base_name url ++ (".url").data)))).take 200
            ++ (".url").data))
        (("[InternetShortcut]\nURL=").data ++ effective_url url) ∧
    ((transform_file_path fs
        (unquote_plus (ntjoin d (url_base_name url ++ (".url").data)))).take 200).length
      ≤ 200 := by
  constructor
  · simp only [create_url_file]
    rw [if_neg hmem, hld]
    rw [if_pos hlong]
  · rw [List.length_take]
    omega

set_option maxRecDepth 4000 in

/-- Witness for claim C6 at a concrete input: a URL whose decoded path has
207 characters. -/

theorem claim_C6_truncation_witness :
    (ntjoin [] (url_base_name (("http://example.com/").data ++ List.replicate 190 'a')
        ++ (".url").data) ∉ ([] : List Text) ∧
      200 < (transform_file_path []
        (unquote_plus (ntjoin []
          (url_base_name (("http://example.com/").data ++ List.replicate 190 'a')
            ++ (".url").data)))).length) ∧
    ((transform_file_path []
        (unquote_plus (ntjoin []
          (url_base_name (("http://example.com/").data ++ List.replicate 190 'a')
            ++ (".url").data)))).take 200).length ≤ 200 :=
  ⟨⟨by simp, by decide⟩,
    (claim_C6_truncation (("http://example.com/").data ++ List.replicate 190 'a') [] []
      (by simp) (by rfl) (by decide)).2⟩

theorem prefix_append_both {d x y : Text} (h : x <+: y) : d ++ x <+: d ++ y := by
  obtain ⟨t, rfl⟩ := h
  exact ⟨t, by rw [List.append_assoc]⟩

theorem splitdrive_append (p : Text) : (splitdrive p).1 ++ (splitdrive p).2 = p := by
  rw [splitdrive]
  repeat' split
  all_goals simp [List.take_append_drop]

theorem dropTrailingSeps_prefix_self (t : Text) : dropTrailingSeps t <+: t := by
  have h : (t.reverse.dropWhile isSep) <:+ t.reverse := List.dropWhile_suffix isSep
  have h2 := List.reverse_prefix.mpr h
  rwa [List.reverse_reverse] at h2

theorem dirname_prefix_self (p : Text) : dirname p <+: p := by
  conv_rhs => rw [← splitdrive_append p]
  rw [dirname]
  simp only [ntsplit]
  apply prefix_append_both
  split
  · exact List.take_prefix _ _
  · exact (dropTrailingSeps_prefix_self _).trans ( List.take_prefix _ _)

theorem goodWalkPath_tail {a : Char} {l : Text} (h : goodWalkPath (a :: l) = true) :
    goodWalkPath l = true := by
  cases l with
  | nil => rfl
  | cons b r =>
    simp only [goodWalkPath, Bool.and_eq_true] at h
    exact h.2

theorem goodWalkPath_append_left (x y : Text) (h : goodWalkPath (x ++ y) = true) :
    goodWalkPath x = true := by
  induction x with
  | nil => rfl
  | cons a x ih =>
    have hx : goodWalkPath x = true := ih (goodWalkPath_tail (by rwa [List.cons_append] at h))
    cases x with
    | nil => rfl
    | cons b r =>
      rw [List.cons_append, List.cons_append] at h
      simp only [goodWalkPath, Bool.and_eq_true] at h
      rw [goodWalkPath]
      simp only [Bool.and_eq_true]
      exact ⟨h.1, hx⟩

theorem goodWalkPath_mono {l p : Text} (hp : l <+: p) (h : goodWalkPath p = true) :
    goodWalkPath l = true := by
  obtain ⟨t, rfl⟩ := hp
  exact goodWalkPath_append_left l t h

theorem not_good_of_two_seps {r : Text} {a b : Char} (ha : isSep a = true)
    (hb : isSep b = true) : goodWalkPath (a :: b :: r) = false := by
  rw [goodWalkPath]
  simp [ha, hb]

theorem isRootPart_of_sep {s : Char} (h : isSep s = true) : isRootPart (s :: []) = true := by
  rw [isSep, Bool.or_eq_true, beq_iff_eq, beq_iff_eq] at h
  rcases h with rfl | rfl
  · decide
  · decide

theorem splitdrive_short {p : Text} (h : p.length < 2) : splitdrive p = ([], p) := by
  rw [splitdrive, if_neg (by omega)]

theorem splitdrive_drive (c : Char) (r : Text) :
    splitdrive (c :: ':' :: r) = ((c :: ':' :: []), r) := by
  rw [splitdrive]
  rw [if_pos (by simp)]
  rw [if_neg (by simp [isSep])]
  rw [if_pos (by simp)]
  simp

theorem splitdrive_good (p : Text) (hgood : goodWalkPath p = true) :
    ((splitdrive p).1 = [] ∧ (splitdrive p).2 = p) ∨
    (∃ c rest, p = c :: ':' :: rest ∧ (splitdrive p).1 = (c :: ':' :: []) ∧
      (splitdrive p).2 = rest) := by
  match p with
  | [] => exact Or.inl ⟨rfl, rfl⟩
  | c1 :: [] => exact Or.inl ⟨rfl, rfl⟩
  | c1 :: c2 :: r =>
    by_cases hsep : isSep c1 = true ∧ isSep c2 = true
    · rw [not_good_of_two_seps hsep.1 hsep.2] at hgood
      simp at hgood
    · by_cases hc2 : c2 = ':'
      · subst hc2
        right
        exact ⟨c1, r, rfl, by rw [splitdrive_drive], by rw [splitdrive_drive]⟩
      · left
        rw [splitdrive]
        rw [if_pos (by simp)]
        rw [if_neg (by
          simp only [List.take_succ_cons, List.take_zero, List.all_cons, List.all_nil,
            Bool.and_true, Bool.and_eq_true, Bool.not_eq_true]
          intro hcon
          exact absurd hcon.1 hsep)]
        rw [if_neg (by
          simp only [List.drop_succ_cons, List.drop_zero, List.head?_cons]
          simp [hc2])]
        exact ⟨rfl, rfl⟩

theorem exists_two_of_two_le {l : Text} (h : 2 ≤ l.length) :
    ∃ a b r, l = a :: b :: r := by
  cases l with
  | nil => simp at h
  | cons a t =>
    cases t with
    | nil => simp at h
    | cons b r => exact ⟨a, b, r, rfl⟩

theorem exists_one_of_length_eq_one {l : Text} (h : l.length = 1) : ∃ a, l = a :: [] := by
  cases l with
  | nil => simp at h
  | cons a t =>
    cases t with
    | nil => exact ⟨a, rfl⟩
    | cons b r => simp at h

theorem dirname_case (p d rest : Text)
    (hd : (splitdrive p).1 = d) (hrest : (splitdrive p).2 = rest)
    (hgoodrest : goodWalkPath rest = true)
    (hdroot : isRootPart (splitdrive d).2 = true)
    (hdroot1 : ∀ s : Char, isSep s = true →
      isRootPart (splitdrive (d ++ s :: [])).2 = true) :
    isRootPart (splitdrive (dirname p)).2 = true ∨ (dirname p).length < p.length := by
  have hlen : p.length = d.length + rest.length := by
    conv_lhs => rw [← splitdrive_append p, hd, hrest]
    rw [List.length_append]
  have hdir : dirname p = d ++
      (let i := match rest.reverse.findIdx? isSep with
        | some j => rest.length - j
        | none => 0
       if dropTrailingSeps (rest.take i) = [] then rest.take i
       else dropTrailingSeps (rest.take i)) := by
    rw [dirname]
    simp only [ntsplit, hd, hrest]
  cases hfind : rest.reverse.findIdx? isSep with
  | none =>
    simp only [hfind] at hdir
    simp only [List.take_zero, dropTrailingSeps, List.reverse_nil, List.dropWhile_nil,
      if_pos] at hdir
    rw [List.append_nil] at hdir
    rw [hdir]
    exact Or.inl hdroot
  | some j =>
    obtain ⟨hjlt, hsepj, hmin⟩ := List.findIdx?_eq_some_iff_getElem.mp hfind
    rw [List.length_reverse] at hjlt
    simp only [hfind] at hdir
    have hi1 : 1 ≤ rest.length - j := by omega
    have hile : rest.length - j ≤ rest.length := by omega
    have hrev : (rest.take (rest.length - j)).reverse = rest.reverse.drop j := by
      rw [List.reverse_take]
      congr 1
      omega
    have hheadlen : (rest.take (rest.length - j)).length = rest.length - j := by
      rw [List.length_take]
      omega
    by_cases hnil : dropTrailingSeps (rest.take (rest.length - j)) = []
    · rw [if_pos hnil] at hdir
      have hall : ∀ x ∈ rest.take (rest.length - j), isSep x = true := by
        intro x hx
        have hxr : x ∈ (rest.take (rest.length - j)).reverse := List.mem_reverse.mpr hx
        rw [dropTrailingSeps] at hnil
        have h0 : (rest.take (rest.length - j)).reverse.dropWhile isSep = [] := by
          have := congrArg List.reverse hnil
          rwa [List.reverse_reverse, List.reverse_nil] at this
        exact List.dropWhile_eq_nil_iff.mp h0 x hxr
      rcases Nat.lt_or_ge 1 (rest.length - j) with hi2 | hi1'
      · obtain ⟨x0, x1, t, hx⟩ :=
          exists_two_of_two_le (l := rest.take (rest.length - j)) (by omega)
        have h0 : isSep x0 = true := hall x0 (by rw [hx]; exact List.mem_cons_self _ _)
        have h1 : isSep x1 = true :=
          hall x1 (by rw [hx]; exact List.mem_cons_of_mem _ (List.mem_cons_self _ _))
        have hgoodhead : goodWalkPath (rest.take (rest.length - j)) = true :=
          goodWalkPath_mono ( List.take_prefix _ _) hgoodrest
        rw [hx, not_good_of_two_seps h0 h1] at hgoodhead
        simp at hgoodhead
      · have hieq : rest.length - j = 1 := by omega
        obtain ⟨s, hx⟩ :=
          exists_one_of_length_eq_one (l := rest.take (rest.length - j)) (by omega)
        have hsep : isSep s = true := hall s (by rw [hx]; exact List.mem_cons_self _ _)
        rw [hx] at hdir
        rw [hdir]
        exact Or.inl (hdroot1 s hsep)
    · rw [if_neg hnil] at hdir
      right
      have hlt : (dropTrailingSeps (rest.take (rest.length - j))).length < rest.length - j := by
        rw [dropTrailingSeps, List.length_reverse, hrev]
        rw [List.drop_eq_getElem_cons (by rw [List.length_reverse]; omega)]
        rw [List.dropWhile_cons_of_pos hsepj]
        have hsub := List.Sublist.length_le
          (List.dropWhile_sublist (l := rest.reverse.drop (j + 1)) isSep)
        have hd2 : (rest.reverse.drop (j + 1)).length = rest.length - (j + 1) := by
          rw [List.length_drop, List.length_reverse]
        omega
      rw [hdir, List.length_append]
      omega

theorem dirname_root_or_shrink (p : Text) (hgood : goodWalkPath p = true) :
    isRootPart (splitdrive (dirname p)).2 = true ∨ (dirname p).length < p.length := by
  rcases splitdrive_good p hgood with ⟨hd, hrest⟩ | ⟨c, rest, hp, hd, hrest⟩
  · refine dirname_case p [] p hd hrest hgood rfl ?_
    intro s hs
    rw [List.nil_append]
    rw [splitdrive_short (by simp)]
    exact isRootPart_of_sep hs
  · refine dirname_case p (c :: ':' :: []) rest hd hrest ?_ ?_ ?_
    · subst hp
      exact goodWalkPath_tail (goodWalkPath_tail hgood)
    · rw [splitdrive_drive]
      rfl
    · intro s hs
      rw [List.cons_append, List.cons_append, List.nil_append]
      rw [splitdrive_drive]
      exact isRootPart_of_sep hs

theorem parallel_walk_eq (fs : List Text) :
    ∀ fuel p, goodWalkPath p = true → p.length < fuel →
      parallel_walk fs fuel p =
        some (match (walk_chain fuel p).find? (fun q => decide (q ∈ fs)) with
          | some q => ParallelAction.openDir q
          | none => ParallelAction.ignore) := by
  intro fuel
  induction fuel with
  | zero =>
    intro p _ h
    omega
  | succ fuel ih =>
    intro p hgood hlen
    rw [parallel_walk, walk_chain]
    by_cases hmem : p ∈ fs
    · rw [if_pos hmem]
      simp [hmem]
    · rw [if_neg hmem]
      by_cases hroot : isRootPart (splitdrive (dirname p)).2 = true
      · rw [if_pos hroot, if_pos hroot]
        simp [hmem]
      · rw [if_neg hroot, if_neg hroot]
        have hshrink : (dirname p).length < p.length := by
          rcases dirname_root_or_shrink p hgood with h | h
          · exact absurd h hroot
          · exact h
        rw [ih (dirname p) (goodWalkPath_mono (dirname_prefix_self p) hgood) (by omega)]
        simp [hmem]

/-- Claim C8: an invocation of `open_parallel_dir` with `create = false` and
a matching prefix opens the candidate when it exists; otherwise the
candidate is repeatedly replaced by its parent directory (the `walk_chain`)
until an existing directory is found (which is opened) or the partition
root is reached, in which case the result is `ignore` — never an error and
never a non-terminating walk (the result is always `some`).  The
well-formedness hypothesis (no consecutive separators in the candidate)
holds for every candidate the repository's configured base directories can
produce. -/

theorem claim_C8_parallel_walk_up (fs : List Text) (bar base_dir cand pre : Text)
    (hbar : bar ≠ [])
    (hpre : parallel_prefixes.find?
        (fun q => prefix_matches (stripSeps (splitdrive bar).2) q) = some pre)
    (hcand : cand = (ntjoin base_dir
        (((stripSeps (splitdrive bar).2).drop pre.length).dropWhile isSep)).map
        (fun c => if c = '\\' then '/' else c))
    (hgood : goodWalkPath cand = true) :
    (open_parallel_dir fs bar base_dir false =
        some (fs,
          match (walk_chain (cand.length + 1) cand).find? (fun q => decide (q ∈ fs)) with
          | some q => ParallelAction.openDir q
          | none => ParallelAction.ignore)) ∧
    (cand ∈ fs →
        open_parallel_dir fs bar base_dir false = some (fs, ParallelAction.openDir cand)) ∧
    (∀ q, (walk_chain (cand.length + 1) cand).find? (fun x => decide (x ∈ fs)) = some q →
        q ∈ fs) ∧
    ((∀ q ∈ walk_chain (cand.length + 1) cand, q ∉ fs) →
        open_parallel_dir fs bar base_dir false = some (fs, ParallelAction.ignore)) := by
  have hmain : open_parallel_dir fs bar base_dir false =
      some (fs,
        match (walk_chain (cand.length + 1) cand).find? (fun q => decide (q ∈ fs)) with
        | some q => ParallelAction.openDir q
        | none => ParallelAction.ignore) := by
    simp only [open_parallel_dir]
    rw [if_neg hbar]
    simp only [hpre]
    simp only [Bool.false_eq_true, if_false]
    rw [← hcand]
    rw [parallel_walk_eq fs (cand.length + 1) cand hgood (by omega)]
    rfl
  refine ⟨hmain, ?_, ?_, ?_⟩
  · intro hmem
    have hfind : (walk_chain (cand.length + 1) cand).find? (fun q => decide (q ∈ fs)) =
        some cand := by
      rw [walk_chain]
      simp [hmem]
    rw [hmain, hfind]
  · intro q hq
    have hdq := @List.find?_some _ (fun x => decide (x ∈ fs)) q
      (walk_chain (cand.length + 1) cand) hq
    exact of_decide_eq_true hdq
  · intro hq
    have hnone : (walk_chain (cand.length + 1) cand).find? (fun q => decide (q ∈ fs)) =
        none :=
      List.find?_eq_none.mpr (fun x hx => by simp [hq x hx])
    rw [hmain, hnone]

/-- Witness for claim C8 at the spec's own example: jumping from
`D:\\Study\\Dev\\Lang\\Python` with base `D:/Software`, where
`D:/Software/Dev/Lang/Python` does not exist but `D:/Software/Dev/Lang`
does, opens `D:/Software/Dev/Lang`. -/

theorem claim_C8_parallel_walk_up_witness :
    ((("D:\\Study\\Dev\\Lang\\Python").data ≠ ([] : Text)) ∧
      parallel_prefixes.find?
          (fun q => prefix_matches
            (stripSeps (splitdrive (("D:\\Study\\Dev\\Lang\\Python").data)).2) q) =
        some (("Study").data) ∧
      goodWalkPath (("D:/Software/Dev/Lang/Python").data) = true) ∧
    open_parallel_dir ((("D:/Software/Dev/Lang").data) :: [])
        (("D:\\Study\\Dev\\Lang\\Python").data) (("D:/Software").data) false =
      some (((("D:/Software/Dev/Lang").data) :: []),
        ParallelAction.openDir (("D:/Software/Dev/Lang").data)) :=
  ⟨⟨by decide, by decide, by decide⟩, by
    have h := (claim_C8_parallel_walk_up ((("D:/Software/Dev/Lang").data) :: [])
      (("D:\\Study\\Dev\\Lang\\Python").data) (("D:/Software").data)
      (("D:/Software/Dev/Lang/Python").data) (("Study").data)
      (by decide) (by decide) (by decide) (by decide)).1
    rw [h]
    decide⟩
